import Mathlib

/-!
Verification of the parse-extract-diagnose-patch pipeline implemented in
src/src/components/ConfigEditor/index.tsx (alloy-configurator).

The TypeScript source is shallowly embedded: tree-sitter syntax trees become
an inductive tree type, the monaco text model becomes a list of lines of
characters, and each function of the source file becomes a Lean function
translated statement by statement.  External collaborators (tree-sitter,
monaco, the River codec that lives outside src/) are modelled from the
interface contract the source relies on; such definitions say so in their
doc comment.
-/

/-- A tree-sitter point: 0-indexed row and 0-indexed column. -/
structure Pos where
  row : Nat
  col : Nat
  deriving DecidableEq

/-- Model of monaco.editor.IMarkerData as emitted by the source file:
message, severity, and a start/end position. -/
structure MarkerData where
  message : String
  severity : Nat
  startLineNumber : Nat
  startColumn : Nat
  endLineNumber : Nat
  endColumn : Nat
  deriving DecidableEq

/-- monaco.MarkerSeverity.Error. -/
def markerSeverityError : Nat := 8

/-- Model of a web-tree-sitter syntax node: a type tag, the isMissing flag,
start and end positions, and the ordered list of children.  The hasError
flag of tree-sitter is not stored: it is derived below, following the
tree-sitter contract (true iff the subtree rooted here contains an
ERROR-typed node or a missing node). -/
inductive STree where
  | mk (ty : String) (missing : Bool) (startPos : Pos) (endPos : Pos)
      (children : List STree)

/-- The node's type tag (cursor.nodeType / n.type). -/
def STree.nodeType : STree → String
  | .mk t _ _ _ _ => t

/-- The node's isMissing flag (cursor.nodeIsMissing). -/
def STree.isMissing : STree → Bool
  | .mk _ m _ _ _ => m

/-- n.startPosition. -/
def STree.startPos : STree → Pos
  | .mk _ _ s _ _ => s

/-- n.endPosition. -/
def STree.endPos : STree → Pos
  | .mk _ _ _ e _ => e

/-- The node's ordered children (gotoFirstChild / gotoNextSibling walk). -/
def STree.children : STree → List STree
  | .mk _ _ _ _ cs => cs

mutual

/-- Tree-sitter's node.hasError: the node is an ERROR node, is missing, or
some descendant is.  Modelled from the tree-sitter contract (the parser is
an external collaborator). -/
def STree.hasError : STree → Bool
  | .mk t m _ _ cs => t == "ERROR" || m || hasErrorL cs

/-- hasError over a list of sibling subtrees. -/
def hasErrorL : List STree → Bool
  | [] => false
  | t :: ts => t.hasError || hasErrorL ts

end

/-- The marker pushed by findErrors for an ERROR-typed node (source lines
38-45): message "unable to parse", error severity, start at
(startPosition.row + 1, startPosition.column), end at
(endPosition.row + 1, endPosition.column + 1). -/
def errMarkerOf (t : STree) : MarkerData :=
  { message := "unable to parse"
    severity := markerSeverityError
    startLineNumber := t.startPos.row + 1
    startColumn := t.startPos.col
    endLineNumber := t.endPos.row + 1
    endColumn := t.endPos.col + 1 }

/-- The marker pushed by findErrors for a missing node (source lines
48-55): message "Missing " ++ n.type, same position formulas as
errMarkerOf. -/
def missMarkerOf (t : STree) : MarkerData :=
  { message := "Missing " ++ t.nodeType
    severity := markerSeverityError
    startLineNumber := t.startPos.row + 1
    startColumn := t.startPos.col
    endLineNumber := t.endPos.row + 1
    endColumn := t.endPos.col + 1 }

/-- The markers the body of findErrors' while-loop pushes for one node
(source lines 36-56): the ERROR marker when the node type is "ERROR",
then the missing marker when the node is flagged missing. -/
def nodeMarkers (t : STree) : List MarkerData :=
  (if t.nodeType == "ERROR" then [errMarkerOf t] else []) ++
  (if t.isMissing then [missMarkerOf t] else [])

mutual

/-- findErrors (source lines 32-64).  The cursor argument becomes the list
whose head is the cursor's current node and whose tail is the following
siblings.  The function first tests hasError on the current node only
(line 33) and returns [] when it is clear; otherwise it runs the
while-loop over the node and its siblings. -/
def findErrors : List STree → List MarkerData
  | [] => []
  | t :: rest => if t.hasError then findLoop (t :: rest) else []
termination_by ts => (sizeOf ts, 1)

/-- The while-loop of findErrors: for each sibling in turn, push the
node's own markers, then (when the node has children, gotoFirstChild)
recurse into the child list via findErrors, then move to the next
sibling. -/
def findLoop : List STree → List MarkerData
  | [] => []
  | STree.mk t m sp ep cs :: rest =>
      nodeMarkers (.mk t m sp ep cs) ++ findErrors cs ++ findLoop rest
termination_by ts => (sizeOf ts, 0)

end

mutual

/-- The nodes visited by findErrors' traversal (the ones on which the
while-loop body runs), in visit order. -/
def visitedF : List STree → List STree
  | [] => []
  | t :: rest => if t.hasError then visitedLoop (t :: rest) else []
termination_by ts => (sizeOf ts, 1)

/-- Visited nodes of the while-loop: the node itself, then the visit of
its child list, then the following siblings. -/
def visitedLoop : List STree → List STree
  | [] => []
  | STree.mk t m sp ep cs :: rest =>
      STree.mk t m sp ep cs :: (visitedF cs ++ visitedLoop rest)
termination_by ts => (sizeOf ts, 0)

end

mutual

/-- All nodes of a subtree in pre-order (what a full traversal would
visit). -/
def allNodes : STree → List STree
  | .mk t m sp ep cs => STree.mk t m sp ep cs :: allNodesL cs

/-- Pre-order node list of a forest. -/
def allNodesL : List STree → List STree
  | [] => []
  | t :: ts => allNodes t ++ allNodesL ts

end

/-- The diagnostics the spec requires the syntax pass to emit: one marker
per ERROR-typed or missing node of the whole tree, in pre-order (the
clean nodes contribute nothing, so this is nodeMarkers summed over every
node). -/
def requiredMarkers (ts : List STree) : List MarkerData :=
  (allNodesL ts).flatMap nodeMarkers

/-- Convenience constructor for a childless tree-sitter node. -/
def tsLeaf (t : String) (m : Bool) (r1 c1 r2 c2 : Nat) : STree :=
  .mk t m ⟨r1, c1⟩ ⟨r2, c2⟩ []

/-- A parse tree in which the document root contains an error, its first
child is a clean identifier and its second child is an ERROR region —
the shape tree-sitter produces for text whose malformed part starts
after a well-formed token. -/
def c1Tree : STree :=
  .mk "config_file" false ⟨0, 0⟩ ⟨0, 9⟩
    [tsLeaf "identifier" false 0 0 0 3, tsLeaf "ERROR" false 0 4 0 9]

/-- A parse tree whose root contains an error, with a clean first child
and a missing-node second child. -/
def c4Tree : STree :=
  .mk "config_file" false ⟨0, 0⟩ ⟨0, 7⟩
    [tsLeaf "identifier" false 0 0 0 3, tsLeaf "identifier" true 0 7 0 7]

/-- A parse tree whose first child under the root is the ERROR region. -/
def errFirstTree : STree :=
  .mk "config_file" false ⟨0, 0⟩ ⟨0, 9⟩
    [tsLeaf "ERROR" false 0 0 0 3, tsLeaf "identifier" false 0 4 0 9]

/-- Modelled from the spec: the value of one River attribute as the Block
Model Codec (src/lib/river, whose source is not under src/) renders it —
either a string, rendered quoted, or an unquoted expression rendered
verbatim (spec 3. and 4.1: ordered key-value attributes, deterministic
quoting of attribute values; spec 8. shows unquoted reference expressions
such as b.bar.y as attribute values). -/
inductive RValue where
  | str (s : String)
  | expr (e : String)

/-- Modelled from the spec: one item of a block body, in source order —
an attribute or a nested block (spec 3.: attributes and nested-Block
content, ordered). -/
inductive Stmt where
  | attr (key : String) (value : RValue)
  | blk (name : String) (label : Option String) (body : List Stmt)

/-- Modelled from the spec: River.Block — a dotted-identifier name, an
optional label, and the ordered body content (spec 3., Block). -/
structure Block where
  name : String
  label : Option String
  body : List Stmt

/-- Characters allowed in River identifiers (names and attribute keys):
letters, digits, dots and underscores. -/
def identChar (c : Char) : Bool :=
  c.isAlpha || c.isDigit || c = '.' || c = '_'

/-- A well-formed identifier: nonempty, made of identifier characters. -/
def identOk (s : String) : Bool :=
  !s.toList.isEmpty && s.toList.all identChar

/-- A label or string value the canonical quoting renders without
escapes: it contains no double quote. -/
def quotedOk (s : String) : Bool :=
  s.toList.all (fun c => !(c = '"'))

/-- A well-formed unquoted expression: free of newlines and not starting
with a double quote (so the codec can re-read it unambiguously). -/
def exprOk (e : String) : Bool :=
  e.toList.all (fun c => !(c = '\n')) &&
  (match e.toList with
   | [] => true
   | c :: _ => !(c = '"'))

/-- Well-formedness of an attribute value. -/
def wfValue : RValue → Bool
  | .str s => quotedOk s
  | .expr e => exprOk e

/-- Well-formedness of an optional label. -/
def labelOptOk : Option String → Bool
  | none => true
  | some s => quotedOk s

mutual

/-- Well-formedness of a body item (spec 8.: a syntactically valid
Block). -/
def wfStmt : Stmt → Bool
  | .attr k v => identOk k && wfValue v
  | .blk n l body => identOk n && labelOptOk l && wfStmts body

/-- Well-formedness of a body. -/
def wfStmts : List Stmt → Bool
  | [] => true
  | s :: rest => wfStmt s && wfStmts rest

end

/-- A structurally valid Block (spec 3.: well-formed b). -/
def wfBlock (b : Block) : Bool :=
  identOk b.name && labelOptOk b.label && wfStmts b.body

/-- Modelled from the spec: the header the codec renders for a block —
name, the optional label quoted, and the opening brace (spec 4.1:
canonical source text with deterministic quoting of the label). -/
def headerL (n : String) (l : Option String) : List Char :=
  n.toList ++
  (match l with
   | none => [' ', '{', '\n']
   | some s => ' ' :: '"' :: (s.toList ++ ['"', ' ', '{', '\n']))

mutual

/-- Modelled from the spec: canonical rendering of one body item
(spec 4.1: marshal renders canonical source text). Attributes render as
key SPACE EQUALS SPACE value; nested blocks render as a full block. -/
def marshalStmt : Stmt → List Char
  | .attr k (.str s) => k.toList ++ (' ' :: '=' :: ' ' :: '"' :: (s.toList ++ ['"']))
  | .attr k (.expr e) => k.toList ++ (' ' :: '=' :: ' ' :: e.toList)
  | .blk n l body => headerL n l ++ (marshalStmts body ++ ['}'])

/-- Canonical rendering of a body: each item on its own line. -/
def marshalStmts : List Stmt → List Char
  | [] => []
  | s :: rest => marshalStmt s ++ ('\n' :: marshalStmts rest)

end

/-- Modelled from the spec: marshal of a whole Block (component.marshal()
as called at source lines 278, 299 and 331). -/
def marshalL (b : Block) : List Char :=
  marshalStmt (.blk b.name b.label b.body)

/-- component.marshal() as a String. -/
def marshal (b : Block) : String :=
  String.mk (marshalL b)

/-- Longest identifier-character prefix of the input, with the rest. -/
def spanIdent : List Char → (List Char × List Char)
  | [] => ([], [])
  | c :: rest =>
      if identChar c then
        let p := spanIdent rest
        (c :: p.1, p.2)
      else ([], c :: rest)

/-- Read characters up to an expected closing double quote; consume the
quote.  Fails when no quote follows. -/
def takeStr : List Char → Option (List Char × List Char)
  | [] => none
  | c :: rest =>
      if c = '"' then some ([], rest)
      else (takeStr rest).map (fun p => (c :: p.1, p.2))

/-- Longest newline-free prefix of the input, with the rest. -/
def spanNotNl : List Char → (List Char × List Char)
  | [] => ([], [])
  | c :: rest =>
      if c = '\n' then ([], c :: rest)
      else
        let p := spanNotNl rest
        (c :: p.1, p.2)

/-- Consume an expected literal prefix of the input. -/
def dropLit : List Char → List Char → Option (List Char)
  | [], input => some input
  | _ :: _, [] => none
  | p :: ps, c :: rest => if c = p then dropLit ps rest else none

/-- Modelled from the spec: read one attribute value — a quoted string
when the input starts with a double quote, otherwise the unquoted
expression extending to the end of the line. -/
def parseValue : List Char → Option (RValue × List Char)
  | [] => some (.expr "", [])
  | c :: rest =>
      if c = '"' then (takeStr rest).map (fun p => (.str (String.mk p.1), p.2))
      else
        let p := spanNotNl (c :: rest)
        some (.expr (String.mk p.1), p.2)

mutual

/-- Modelled from the spec: parse + UnmarshalBlock composed on canonical
block text (the codec is bidirectional, spec 4.1) — reads the block
header (name, optional quoted label, opening brace) then the body, and
returns the Block with the unconsumed input.  Fuel bounds the recursion
depth. -/
def parseBlockF : Nat → List Char → Option (Block × List Char)
  | 0, _ => none
  | fuel + 1, input =>
      let p := spanIdent input
      if p.1.isEmpty then none
      else
        match dropLit [' ', '"'] p.2 with
        | some r3 =>
            match takeStr r3 with
            | none => none
            | some q =>
                match dropLit [' ', '{', '\n'] q.2 with
                | none => none
                | some r5 =>
                    (parseStmtsF fuel r5).map
                      (fun w => (⟨String.mk p.1, some (String.mk q.1), w.1⟩, w.2))
        | none =>
            match dropLit [' ', '{', '\n'] p.2 with
            | none => none
            | some r3 =>
                (parseStmtsF fuel r3).map
                  (fun w => (⟨String.mk p.1, none, w.1⟩, w.2))

/-- Modelled from the spec: parse the items of a block body up to and
including the closing brace. -/
def parseStmtsF : Nat → List Char → Option (List Stmt × List Char)
  | 0, _ => none
  | fuel + 1, input =>
      match input with
      | [] => none
      | c :: rest =>
          if c = '}' then some ([], rest)
          else
            let p := spanIdent (c :: rest)
            if p.1.isEmpty then none
            else
              match dropLit [' ', '=', ' '] p.2 with
              | some r2 =>
                  match parseValue r2 with
                  | none => none
                  | some v =>
                      match dropLit ['\n'] v.2 with
                      | none => none
                      | some r4 =>
                          (parseStmtsF fuel r4).map
                            (fun w => (Stmt.attr (String.mk p.1) v.1 :: w.1, w.2))
              | none =>
                  match parseBlockF fuel (c :: rest) with
                  | none => none
                  | some bp =>
                      match dropLit ['\n'] bp.2 with
                      | none => none
                      | some r3 =>
                          (parseStmtsF fuel r3).map
                            (fun w => (Stmt.blk bp.1.name bp.1.label bp.1.body :: w.1, w.2))

end

mutual

/-- Fuel bound sufficient to parse one rendered body item. -/
def sizeStmt : Stmt → Nat
  | .attr _ _ => 1
  | .blk _ _ body => 1 + sizeStmts body

/-- Fuel bound sufficient to parse a rendered body. -/
def sizeStmts : List Stmt → Nat
  | [] => 1
  | s :: rest => 1 + sizeStmt s + sizeStmts rest

end

/-- Fuel bound sufficient to parse a rendered block. -/
def sizeBlock (b : Block) : Nat :=
  1 + sizeStmts b.body

/-- Modelled from the spec: unmarshal of the parse of a whole document
that consists of one block — River.UnmarshalBlock (source line 114)
composed with the external parse, on the root block node. -/
def parseUnmarshal (text : String) : Option Block :=
  match parseBlockF (text.toList.length + 1) text.toList with
  | some (b, []) => some b
  | _ => none

/-- One line of the monaco text model, as a list of characters. -/
abbrev Line := List Char

/-- Model of a monaco IRange: 1-indexed line numbers and 1-indexed
columns as monaco defines them; the source file sometimes feeds
0-indexed tree-sitter columns into these fields, and the theorems record
exactly what it feeds. -/
structure MRange where
  startLineNumber : Nat
  startColumn : Nat
  endLineNumber : Nat
  endColumn : Nat
  deriving DecidableEq

/-- One entry of an editor.executeEdits call: a range and the text that
replaces it. -/
structure TextEdit where
  range : MRange
  text : String
  deriving DecidableEq

/-- model.getLineCount(): the buffer is its list of lines (a monaco
model always has at least one line; the empty buffer is [[]]). -/
def getLineCount (lines : List Line) : Nat :=
  lines.length

/-- model.getLineMaxColumn(n) for a 1-indexed line number n: one more
than the line's length. -/
def getLineMaxColumn (lines : List Line) (n : Nat) : Nat :=
  (lines.getD (n - 1) []).length + 1

/-- The 0-indexed start offsets, within one line, of the non-overlapping
left-to-right occurrences of the nonempty needle nc :: nrest — monaco's
literal find continues each search after the end of the previous match. -/
def scanFrom (nc : Char) (nrest : Line) (l : Line) (i : Nat) : List Nat :=
  match l with
  | [] => []
  | c :: rest =>
      if (nc :: nrest).isPrefixOf (c :: rest) then
        i :: scanFrom nc nrest (rest.drop nrest.length) (i + nrest.length + 1)
      else scanFrom nc nrest rest (i + 1)
termination_by l.length
decreasing_by
  · simp only [List.length_cons, List.length_drop]
    omega
  · simp only [List.length_cons]
    omega

/-- model.findMatches(searchString, true, false, true, null, false) as
called at source lines 305-312: case-sensitive literal search over the
buffer (this editor configures no read-only region, so the editable
range is the whole document), one monaco range per occurrence found.
Modelled from the monaco contract for needles without newlines — the
searched reference name ++ "." ++ label never contains one. -/
def findMatches (needle : Line) (lines : List Line) : List MRange :=
  match needle with
  | [] => []
  | nc :: nrest =>
      lines.enum.flatMap (fun p =>
        (scanFrom nc nrest p.2 0).map (fun j =>
          { startLineNumber := p.1 + 1
            startColumn := j + 1
            endLineNumber := p.1 + 1
            endColumn := j + 1 + (nc :: nrest).length }))

/-- The needle occurs literally at 0-indexed offset j of the line. -/
def occursAt (needle line : Line) (j : Nat) : Bool :=
  needle.isPrefixOf (line.drop j)

/-- The buffer text covered by a one-line monaco range. -/
def sliceAt (lines : List Line) (r : MRange) : Line :=
  ((lines.getD (r.startLineNumber - 1) []).drop (r.startColumn - 1)).take
    (r.endColumn - r.startColumn)

/-- The interface of the Parser.SyntaxNode handle that updateComponent
reads (source lines 289-302): its start and end positions and the text
of the first named child of its label field
(node.childForFieldName("label")?.namedChild(0)?.text). -/
structure NodeSpan where
  startPos : Pos
  endPos : Pos
  labelText : Option String

/-- JavaScript template interpolation of a possibly-undefined string:
undefined renders as the text "undefined". -/
def jsStr : Option String → String
  | some s => s
  | none => "undefined"

/-- The replacement range updateComponent builds over the prior node
(source lines 293-298): startPosition.row + 1 / startPosition.column and
endPosition.row + 1 / endPosition.column + 1. -/
def replaceRangeOf (n : NodeSpan) : MRange :=
  { startLineNumber := n.startPos.row + 1
    startColumn := n.startPos.col
    endLineNumber := n.endPos.row + 1
    endColumn := n.endPos.col + 1 }

/-- The old fully-qualified reference updateComponent searches for
(source lines 302-303): the edited block's (new) name joined with the
label text read from the prior node. -/
def oldRefOf (b : Block) (n : NodeSpan) : String :=
  b.name ++ "." ++ jsStr n.labelText

/-- The replacement text for each found reference (source line 316): the
edited block's name joined with its (new) label. -/
def newRefOf (b : Block) : String :=
  b.name ++ "." ++ jsStr b.label

/-- updateComponent (source lines 283-337), reduced to the list of edits
it hands to the single editor.executeEdits("configuration-editor", ...)
call of the taken branch.  With a prior node: the node-span replacement
carrying marshal(component), then one edit per findMatches result for
the old reference, rewriting it to the new reference.  Without a prior
node: one insertion of marshal(component) ++ "\n" at the last line's
maximum column. -/
def updateComponentEdits (component : Block) (node : Option NodeSpan)
    (lines : List Line) : List TextEdit :=
  match node with
  | some n =>
      { range := replaceRangeOf n, text := marshal component } ::
      (findMatches (oldRefOf component n).toList lines).map (fun r =>
        { range := r, text := newRefOf component })
  | none =>
      let lastLine := getLineCount lines
      let column := getLineMaxColumn lines lastLine
      [{ range :=
          { startLineNumber := getLineCount lines
            startColumn := column
            endLineNumber := getLineCount lines
            endColumn := column }
         text := marshal component ++ "\n" }]

/-- The code-lens range provideCodeLenses builds for one component node
(source lines 178-183): startPosition.row + 1 / startPosition.column and
endPosition.row + 1 / endPosition.column — no +1 on the end column. -/
def lensRangeOf (t : STree) : MRange :=
  { startLineNumber := t.startPos.row + 1
    startColumn := t.startPos.col
    endLineNumber := t.endPos.row + 1
    endColumn := t.endPos.col }

/-- The fixed Add Component lens range (source lines 156-161): a
collapsed range at column 1 of the last line. -/
def addLensRange (lines : List Line) : MRange :=
  { startLineNumber := getLineCount lines
    startColumn := 1
    endLineNumber := getLineCount lines
    endColumn := 1 }

/-- The lens ranges provideCodeLenses emits once the parser and the
component list are available (source lines 147-196): the Add Component
lens, then one Edit Component lens per component node. -/
def provideCodeLensRanges (comps : List STree) (lines : List Line) :
    List MRange :=
  addLensRange lines :: comps.map lensRangeOf

/-- model.getValue(): the buffer's lines joined with newlines. -/
def flattenLines : List Line → Line
  | [] => []
  | [l] => l
  | l :: rest => l ++ '\n' :: flattenLines rest

/-- The 0-indexed character offset, within the flattened buffer, of the
1-indexed monaco position (ln, col): the full length (plus newline) of
each earlier line, plus the column. -/
def offsetOf (lines : List Line) (ln col : Nat) : Nat :=
  ((lines.take (ln - 1)).map (fun l => l.length + 1)).sum + (col - 1)

/-- Applying one range-replacement edit to the buffer, viewed on the
flattened text: keep everything before the range's start, emit the edit
text, keep everything from the range's end on.  Models monaco's
executeEdits for a single edit. -/
def applyEditFlat (lines : List Line) (e : TextEdit) : Line :=
  let f := flattenLines lines
  f.take (offsetOf lines e.range.startLineNumber e.range.startColumn) ++
    e.text.toList ++
    f.drop (offsetOf lines e.range.endLineNumber e.range.endColumn)

/-- The imports registry handed to the semantic pass: the source passes
a Record<string, ComponentType>; only its identity matters to the
pipeline claims, so it is modelled as the list of known kind names. -/
abbrev Imports := List String

/-- A ComponentRecord: the pairing of a syntax node with the Block
unmarshalled from it (source lines 112-115). -/
structure Comp where
  node : STree
  block : Block

/-- The published surface the synchronizer owns: the model markers set
for owner "ts" and componentsRef.current. -/
structure PubState where
  markers : List MarkerData
  components : List Comp

/-- The structural query (config_file (block) @component) at source line
110: every block-typed direct child of the document root.  Modelled from
the spec's query contract (select every top-level block node). -/
def queryTopBlocks (t : STree) : List STree :=
  t.children.filter (fun c => c.nodeType == "block")

/-- provideInfoMarkers (source lines 66-73): the semantic markers of
every component, in component order — markersFor lives outside src/ and
is passed in as a function. -/
def provideInfoMarkers (markersForF : STree → Block → Imports → List MarkerData)
    (comps : List Comp) (imports : Imports) : List MarkerData :=
  comps.flatMap (fun c => markersForF c.node c.block imports)

/-- parseComponents (source lines 104-130) as a transition on the
published state.  External capabilities come in as functions: parserRef
(None while the grammar is not loaded), River.UnmarshalBlock, the
component-context setComponents (which returns the imports registry) and
markersFor.  When parserRef is null the function returns immediately
(line 105); otherwise it reparses, extracts the component records,
recomputes both marker streams and replaces the published set with
syntax markers followed by semantic markers (lines 119-127). -/
def parseComponentsStep (parserRef : Option (String → STree))
    (unmarshalN : STree → Block) (setComps : List Comp → Imports)
    (markersForF : STree → Block → Imports → List MarkerData)
    (text : String) (st : PubState) : PubState :=
  match parserRef with
  | none => st
  | some parse =>
      let tree := parse text
      let comps := (queryTopBlocks tree).map (fun n => ⟨n, unmarshalN n⟩)
      let imports := setComps comps
      let errs := findErrors [tree]
      let infos := provideInfoMarkers markersForF comps imports
      { markers := errs ++ infos, components := comps }

/-- The parser-initialization effect (source lines 132-145): when
Parser.init and Language.load complete, parserRef is set to the loaded
parser and parseComponents is invoked at once. -/
def initThenParse (parse : String → STree)
    (unmarshalN : STree → Block) (setComps : List Comp → Imports)
    (markersForF : STree → Block → Imports → List MarkerData)
    (text : String) (st : PubState) : PubState :=
  parseComponentsStep (some parse) unmarshalN setComps markersForF text st

/-- A small structurally valid block used to instantiate the patch
theorems on concrete input. -/
def exBlock : Block :=
  ⟨"local.file", some "cfg", [.attr "filename" (.str "/tmp/a")]⟩

/-- A one-line buffer used to instantiate the patch theorems. -/
def exLines : List Line :=
  [['a', ' ', '{', '}']]

/-- A node handle whose label field reads "cfg", spanning (1,0)-(1,8),
used to instantiate the rename theorems. -/
def exNode : NodeSpan :=
  ⟨⟨1, 0⟩, ⟨1, 8⟩, some "cfg"⟩

/-- A two-line buffer containing one occurrence of local.file.cfg, used
to instantiate the rename theorems. -/
def exRefLines : List Line :=
  [('x' :: ' ' :: '=' :: ' ' :: ("local.file.cfg.content".toList)), ['y']]

/-- C6: while the grammar/parser is not yet loaded (parserRef null), a
reparse trigger is a benign no-op — parseComponents returns with the
published markers and component records unchanged — and the
initialization effect re-runs the cycle with the loaded parser as soon
as loading completes. -/
theorem c6_parser_missing_noop (parse : String → STree)
    (unmarshalN : STree → Block) (setComps : List Comp → Imports)
    (markersForF : STree → Block → Imports → List MarkerData)
    (text : String) (st : PubState) :
    parseComponentsStep none unmarshalN setComps markersForF text st = st ∧
    initThenParse parse unmarshalN setComps markersForF text st =
      parseComponentsStep (some parse) unmarshalN setComps markersForF text st :=
  ⟨rfl, rfl⟩

/-- C5: each publish cycle hands the sink exactly the syntax-pass output
followed by the semantic-pass output, as one flat list, and the
published set is a function of the cycle's inputs alone — the same cycle
started from any two previous published states publishes the same
markers, so the previous set is replaced, not merged into. -/
theorem c5_publish_syntax_then_semantic (parse : String → STree)
    (unmarshalN : STree → Block) (setComps : List Comp → Imports)
    (markersForF : STree → Block → Imports → List MarkerData)
    (text : String) (st st' : PubState) :
    (parseComponentsStep (some parse) unmarshalN setComps markersForF text st).markers =
      findErrors [parse text] ++
        provideInfoMarkers markersForF
          ((queryTopBlocks (parse text)).map (fun n => ⟨n, unmarshalN n⟩))
          (setComps ((queryTopBlocks (parse text)).map (fun n => ⟨n, unmarshalN n⟩))) ∧
    (parseComponentsStep (some parse) unmarshalN setComps markersForF text st).markers =
      (parseComponentsStep (some parse) unmarshalN setComps markersForF text st').markers :=
  ⟨rfl, rfl⟩

/-- C9: running the parse-extract-diagnose cycle twice on the same
unchanged text with the same registry-producing collaborator publishes
identical diagnostic sets — the second run's markers equal the first
run's. -/
theorem c9_diagnostics_deterministic (parse : String → STree)
    (unmarshalN : STree → Block) (setComps : List Comp → Imports)
    (markersForF : STree → Block → Imports → List MarkerData)
    (text : String) (st : PubState) :
    (parseComponentsStep (some parse) unmarshalN setComps markersForF text
        (parseComponentsStep (some parse) unmarshalN setComps markersForF text st)).markers =
      (parseComponentsStep (some parse) unmarshalN setComps markersForF text st).markers :=
  rfl

/-- C1: evaluation at the failing input.  c1Tree contains an ERROR node
(its root's second child), so the spec requires one "unable to parse"
diagnostic; findErrors, whose recursion returns as soon as the cursor's
current node — the first child — reports no error, never reaches that
sibling and returns the empty list. -/
theorem c1_error_diagnostic_dropped :
    findErrors [c1Tree] = [] ∧
    requiredMarkers [c1Tree] = [errMarkerOf (tsLeaf "ERROR" false 0 4 0 9)] := by
  constructor
  · simp [findErrors, findLoop, c1Tree, tsLeaf, STree.hasError, hasErrorL,
      STree.isMissing, STree.nodeType, STree.children, nodeMarkers]
  · simp [requiredMarkers, allNodes, allNodesL, c1Tree, tsLeaf, nodeMarkers,
      STree.nodeType, STree.isMissing]

/-- C3 (amended): every emitted position uses 1-indexed lines and the
node's 0-indexed start column unchanged; the error marker, the missing
marker and the block-replacement range all set the end column to the
node's 0-indexed end column plus one — one shared convention, not two —
while the code-lens command range uses the end column without the
plus-one. -/
theorem c3_position_conventions (t : STree) (n : NodeSpan) :
    (errMarkerOf t).startLineNumber = t.startPos.row + 1 ∧
    (errMarkerOf t).startColumn = t.startPos.col ∧
    (errMarkerOf t).endLineNumber = t.endPos.row + 1 ∧
    (errMarkerOf t).endColumn = t.endPos.col + 1 ∧
    (missMarkerOf t).endColumn = t.endPos.col + 1 ∧
    (replaceRangeOf n).startLineNumber = n.startPos.row + 1 ∧
    (replaceRangeOf n).startColumn = n.startPos.col ∧
    (replaceRangeOf n).endLineNumber = n.endPos.row + 1 ∧
    (replaceRangeOf n).endColumn = n.endPos.col + 1 ∧
    (lensRangeOf t).startLineNumber = t.startPos.row + 1 ∧
    (lensRangeOf t).startColumn = t.startPos.col ∧
    (lensRangeOf t).endLineNumber = t.endPos.row + 1 ∧
    (lensRangeOf t).endColumn = t.endPos.col :=
  ⟨rfl, rfl, rfl, rfl, rfl, rfl, rfl, rfl, rfl, rfl, rfl, rfl, rfl⟩

/-- C3: counterexample — for a node ending at 0-indexed column 5, the
error marker's end column and the replacement range's end column are
both 6: the claimed asymmetry between the marker's end convention and
the replacement range's end convention does not exist in the code. -/
theorem c3_marker_and_replace_share_end_column :
    (errMarkerOf (tsLeaf "block" false 0 0 0 5)).endColumn = 6 ∧
    (replaceRangeOf ⟨⟨0, 0⟩, ⟨0, 5⟩, none⟩).endColumn = 6 ∧
    (errMarkerOf (tsLeaf "block" false 0 0 0 5)).endColumn =
      (replaceRangeOf ⟨⟨0, 0⟩, ⟨0, 5⟩, none⟩).endColumn :=
  ⟨rfl, rfl, rfl⟩

/-- C4: counterexample — c4Tree contains a missing node (the root's
second child), yet findErrors emits nothing for the tree, because its
recursion returns as soon as the first child reports no error; so not
every node flagged missing yields a "Missing <type>" diagnostic. -/
theorem c4_missing_diagnostic_dropped :
    findErrors [c4Tree] = [] ∧
    tsLeaf "identifier" true 0 7 0 7 ∈ allNodesL [c4Tree] ∧
    (tsLeaf "identifier" true 0 7 0 7).isMissing = true := by
  refine ⟨?_, ?_, rfl⟩
  · simp [findErrors, findLoop, c4Tree, tsLeaf, STree.hasError, hasErrorL,
      STree.isMissing, STree.nodeType, STree.children, nodeMarkers]
  · simp [allNodes, allNodesL, c4Tree, tsLeaf]

/-- The monaco position (last line, last line's maximum column) flattens
to the offset at the very end of the buffer text. -/
theorem offsetOf_document_end (lines : List Line) (h : lines ≠ []) :
    offsetOf lines (getLineCount lines) (getLineMaxColumn lines (getLineCount lines)) =
      (flattenLines lines).length := by
  induction lines with
  | nil => exact absurd rfl h
  | cons l ls ih =>
    cases ls with
    | nil => simp [offsetOf, getLineCount, getLineMaxColumn, flattenLines]
    | cons l2 rest =>
      have IH := ih (by simp)
      simp only [offsetOf, getLineCount, getLineMaxColumn, List.length_cons,
        Nat.add_sub_cancel, List.take_succ_cons, List.getD_cons_succ,
        List.map_cons, List.sum_cons, flattenLines, List.length_append] at IH ⊢
      omega

/-- C7: with no prior node, updateComponent issues exactly one edit — a
collapsed range at the buffer's last line and that line's maximum
column, carrying the marshalled block plus a trailing newline — and
applying that edit appends the marshalled block plus separator at the
very end of the document. -/
theorem c7_insert_appends_at_end (b : Block) (lines : List Line) (h : lines ≠ []) :
    updateComponentEdits b none lines =
      [{ range :=
          { startLineNumber := getLineCount lines
            startColumn := getLineMaxColumn lines (getLineCount lines)
            endLineNumber := getLineCount lines
            endColumn := getLineMaxColumn lines (getLineCount lines) }
         text := marshal b ++ "\n" }] ∧
    applyEditFlat lines
        { range :=
            { startLineNumber := getLineCount lines
              startColumn := getLineMaxColumn lines (getLineCount lines)
              endLineNumber := getLineCount lines
              endColumn := getLineMaxColumn lines (getLineCount lines) }
          text := marshal b ++ "\n" } =
      flattenLines lines ++ (marshal b ++ "\n").toList := by
  refine ⟨rfl, ?_⟩
  unfold applyEditFlat
  simp only [offsetOf_document_end lines h, List.take_length, List.drop_length,
    List.append_nil]

/-- Witness for C7 at the concrete buffer exLines and block exBlock. -/
theorem c7_insert_appends_at_end_witness :
    exLines ≠ [] ∧
    (updateComponentEdits exBlock none exLines =
      [{ range :=
          { startLineNumber := getLineCount exLines
            startColumn := getLineMaxColumn exLines (getLineCount exLines)
            endLineNumber := getLineCount exLines
            endColumn := getLineMaxColumn exLines (getLineCount exLines) }
         text := marshal exBlock ++ "\n" }] ∧
    applyEditFlat exLines
        { range :=
            { startLineNumber := getLineCount exLines
              startColumn := getLineMaxColumn exLines (getLineCount exLines)
              endLineNumber := getLineCount exLines
              endColumn := getLineMaxColumn exLines (getLineCount exLines) }
          text := marshal exBlock ++ "\n" } =
      flattenLines exLines ++ (marshal exBlock ++ "\n").toList) :=
  ⟨by simp [exLines], c7_insert_appends_at_end exBlock exLines (by simp [exLines])⟩

/-- Soundness of the literal scan: every reported offset is at least the
running index and marks a literal occurrence of the needle. -/
theorem scanFrom_mem_occurs (nc : Char) (nrest : Line) :
    ∀ (k : Nat) (l : Line), l.length ≤ k → ∀ (i j : Nat), j ∈ scanFrom nc nrest l i →
      i ≤ j ∧ occursAt (nc :: nrest) l (j - i) = true := by
  intro k
  induction k with
  | zero =>
      intro l hl i j hj
      cases l with
      | nil => simp [scanFrom] at hj
      | cons c rest => simp at hl
  | succ k ih =>
      intro l hl i j hj
      cases l with
      | nil => simp [scanFrom] at hj
      | cons c rest =>
        simp only [scanFrom] at hj
        by_cases hp : (nc :: nrest).isPrefixOf (c :: rest) = true
        · rw [if_pos hp] at hj
          rcases List.mem_cons.mp hj with h1 | h2
          · subst h1
            exact ⟨le_rfl, by simpa [occursAt, Nat.sub_self] using hp⟩
          · have hlen : (rest.drop nrest.length).length ≤ k := by
              simp only [List.length_drop]
              simp only [List.length_cons] at hl
              omega
            obtain ⟨hle, hocc⟩ := ih _ hlen _ _ h2
            refine ⟨by omega, ?_⟩
            have hsplit : j - i = (j - (i + nrest.length + 1)) + nrest.length + 1 := by
              omega
            rw [hsplit]
            simp only [occursAt] at hocc ⊢
            rw [List.drop_succ_cons, Nat.add_comm (j - (i + nrest.length + 1)) nrest.length,
              ← List.drop_drop]
            exact hocc
        · rw [if_neg hp] at hj
          have hlen : rest.length ≤ k := by
            simp only [List.length_cons] at hl
            omega
          obtain ⟨hle, hocc⟩ := ih rest hlen (i + 1) j hj
          refine ⟨by omega, ?_⟩
          have hsplit : j - i = (j - (i + 1)) + 1 := by omega
          rw [hsplit]
          simp only [occursAt] at hocc ⊢
          rw [List.drop_succ_cons]
          exact hocc

/-- Completeness of the literal scan: when it reports nothing, the
needle occurs nowhere in the line. -/
theorem scanFrom_eq_nil_no_occur (nc : Char) (nrest : Line) :
    ∀ (k : Nat) (l : Line), l.length ≤ k → ∀ (i : Nat), scanFrom nc nrest l i = [] →
      ∀ j, occursAt (nc :: nrest) l j = false := by
  intro k
  induction k with
  | zero =>
      intro l hl i hscan j
      cases l with
      | nil => simp [occursAt, List.isPrefixOf]
      | cons c rest => simp at hl
  | succ k ih =>
      intro l hl i hscan j
      cases l with
      | nil => simp [occursAt, List.isPrefixOf]
      | cons c rest =>
        simp only [scanFrom] at hscan
        by_cases hp : (nc :: nrest).isPrefixOf (c :: rest) = true
        · rw [if_pos hp] at hscan
          exact absurd hscan (by simp)
        · rw [if_neg hp] at hscan
          cases j with
          | zero =>
              simp only [occursAt, List.drop_zero]
              exact Bool.eq_false_iff.mpr hp
          | succ j2 =>
              have hlen : rest.length ≤ k := by
                simp only [List.length_cons] at hl
                omega
              have := ih rest hlen (i + 1) hscan j2
              simpa [occursAt, List.drop_succ_cons] using this

/-- Every range findMatches reports covers exactly the needle's text. -/
theorem findMatches_slice (needle : Line) (lines : List Line) (hne : needle ≠ [])
    (r : MRange) (hr : r ∈ findMatches needle lines) :
    sliceAt lines r = needle := by
  obtain ⟨nc, nrest, rfl⟩ : ∃ c cs, needle = c :: cs := by
    cases needle with
    | nil => exact absurd rfl hne
    | cons c cs => exact ⟨c, cs, rfl⟩
  simp only [findMatches] at hr
  rw [List.mem_flatMap] at hr
  obtain ⟨p, hp, hr⟩ := hr
  rw [List.mem_map] at hr
  obtain ⟨j, hj, rfl⟩ := hr
  obtain ⟨i, line⟩ := p
  have hplin : lines[i]? = some line := List.mk_mem_enum_iff_getElem?.mp hp
  have hocc := (scanFrom_mem_occurs nc nrest line.length line le_rfl 0 j hj).2
  rw [Nat.sub_zero] at hocc
  have hgd : lines.getD i [] = line := by
    simp [List.getD_eq_getElem?_getD, hplin]
  have hpref := List.isPrefixOf_iff_prefix.mp hocc
  have htake := List.prefix_iff_eq_take.mp hpref
  simp only [sliceAt, Nat.add_sub_cancel, hgd]
  rw [show j + 1 + (nc :: nrest).length - (j + 1) = (nc :: nrest).length by omega]
  exact htake.symm

/-- findMatches reports nothing exactly when the needle occurs nowhere
in the buffer. -/
theorem findMatches_eq_nil_iff (needle : Line) (lines : List Line) (hne : needle ≠ []) :
    findMatches needle lines = [] ↔
      ∀ i j, occursAt needle (lines.getD i []) j = false := by
  obtain ⟨nc, nrest, rfl⟩ : ∃ c cs, needle = c :: cs := by
    cases needle with
    | nil => exact absurd rfl hne
    | cons c cs => exact ⟨c, cs, rfl⟩
  constructor
  · intro hmat i j
    by_cases hi : i < lines.length
    · have hline : lines.getD i [] = lines[i] := by
        simp [List.getD_eq_getElem?_getD, List.getElem?_eq_getElem hi]
      simp only [findMatches] at hmat
      rw [List.flatMap_eq_nil_iff] at hmat
      have hp : (i, lines[i]) ∈ lines.enum :=
        List.mk_mem_enum_iff_getElem?.mpr (List.getElem?_eq_getElem hi)
      have hmap := hmat _ hp
      rw [List.map_eq_nil_iff] at hmap
      rw [hline]
      exact scanFrom_eq_nil_no_occur nc nrest lines[i].length lines[i] le_rfl 0 hmap j
    · have hnone : lines[i]? = none := List.getElem?_eq_none (Nat.le_of_not_lt hi)
      have hnil : lines.getD i [] = [] := by
        rw [List.getD_eq_getElem?_getD, hnone]
        rfl
      rw [hnil]
      simp [occursAt, List.isPrefixOf]
  · intro hno
    simp only [findMatches]
    rw [List.flatMap_eq_nil_iff]
    intro p hp
    rw [List.map_eq_nil_iff]
    obtain ⟨i, line⟩ := p
    have hplin : lines[i]? = some line := List.mk_mem_enum_iff_getElem?.mp hp
    have hgd : lines.getD i [] = line := by
      simp [List.getD_eq_getElem?_getD, hplin]
    by_contra hne2
    have hne3 : scanFrom nc nrest line 0 ≠ [] := hne2
    obtain ⟨j, hj⟩ : ∃ j, j ∈ scanFrom nc nrest line 0 := by
      cases hsc : scanFrom nc nrest line 0 with
      | nil => exact absurd hsc hne3
      | cons a l2 => exact ⟨a, by simp [hsc]⟩
    have hocc := (scanFrom_mem_occurs nc nrest line.length line le_rfl 0 j hj).2
    rw [Nat.sub_zero] at hocc
    have hfalse := hno i j
    rw [hgd, hocc] at hfalse
    exact absurd hfalse (by simp)

/-- The searched reference always contains a dot, so it is nonempty. -/
theorem oldRefOf_toList_ne_nil (b : Block) (n : NodeSpan) :
    (oldRefOf b n).toList ≠ [] := by
  simp [oldRefOf, String.toList, String.data_append]

/-- C2: with a prior node, the single executeEdits transaction holds
exactly the node-span replacement carrying the marshalled block followed
by one edit per found case-sensitive literal occurrence of the old
reference name.oldLabel; every reference edit covers buffer text equal
to the old reference and rewrites it to name.newLabel; and the search
misses nothing — it reports no match only when the old reference occurs
nowhere in the buffer. -/
theorem c2_update_edit_transaction (b : Block) (n : NodeSpan) (lines : List Line) :
    updateComponentEdits b (some n) lines =
      { range := replaceRangeOf n, text := marshal b } ::
        (findMatches (oldRefOf b n).toList lines).map
          (fun r => { range := r, text := newRefOf b }) ∧
    (∀ r ∈ findMatches (oldRefOf b n).toList lines,
      sliceAt lines r = (oldRefOf b n).toList) ∧
    (findMatches (oldRefOf b n).toList lines = [] ↔
      ∀ i j, occursAt (oldRefOf b n).toList (lines.getD i []) j = false) := by
  refine ⟨rfl, ?_, ?_⟩
  · intro r hr
    exact findMatches_slice _ lines (oldRefOf_toList_ne_nil b n) r hr
  · exact findMatches_eq_nil_iff _ lines (oldRefOf_toList_ne_nil b n)

/-- C10: the rename search string is the edited block's new name joined
with the old label read from the prior node, and the rewrite pass runs
unconditionally — whenever the old and new label render the same text,
the new reference equals the old one and every reference edit rewrites
its occurrence to text identical to the text it covers. -/
theorem c10_rename_new_name_old_label (b : Block) (n : NodeSpan) (lines : List Line)
    (h : jsStr n.labelText = jsStr b.label) :
    oldRefOf b n = b.name ++ "." ++ jsStr n.labelText ∧
    newRefOf b = oldRefOf b n ∧
    ∀ e ∈ (updateComponentEdits b (some n) lines).tail,
      e.text = oldRefOf b n ∧ sliceAt lines e.range = e.text.toList := by
  refine ⟨rfl, ?_, ?_⟩
  · simp only [newRefOf, oldRefOf, h]
  · intro e he
    simp only [updateComponentEdits, List.tail_cons] at he
    rw [List.mem_map] at he
    obtain ⟨r, hr, rfl⟩ := he
    constructor
    · simp only [newRefOf, oldRefOf, h]
    · have := findMatches_slice _ lines (oldRefOf_toList_ne_nil b n) r hr
      simp only [this, newRefOf, oldRefOf, h]

/-- Witness for C10 at a block whose label is unchanged and a buffer
holding one occurrence of the reference. -/
theorem c10_rename_new_name_old_label_witness :
    jsStr exNode.labelText = jsStr exBlock.label ∧
    (oldRefOf exBlock exNode = exBlock.name ++ "." ++ jsStr exNode.labelText ∧
     newRefOf exBlock = oldRefOf exBlock exNode ∧
     ∀ e ∈ (updateComponentEdits exBlock (some exNode) exRefLines).tail,
       e.text = oldRefOf exBlock exNode ∧
       sliceAt exRefLines e.range = e.text.toList) :=
  ⟨rfl, c10_rename_new_name_old_label exBlock exNode exRefLines rfl⟩

/-- Every node the findErrors traversal visits contributes its own
markers to the traversal's output (strong induction on the forest
size, the loop statement and the entry statement together). -/
theorem visited_markers_sub (k : Nat) :
    ∀ ts : List STree, sizeOf ts ≤ k →
      (∀ t ∈ visitedLoop ts, ∀ mrk ∈ nodeMarkers t, mrk ∈ findLoop ts) ∧
      (∀ t ∈ visitedF ts, ∀ mrk ∈ nodeMarkers t, mrk ∈ findErrors ts) := by
  induction k with
  | zero =>
      intro ts hts
      cases ts with
      | nil =>
          constructor <;> intro t ht <;> simp [visitedLoop, visitedF] at ht
      | cons hd rest =>
          exact absurd hts (by simp [List.cons.sizeOf_spec])
  | succ k ih =>
      intro ts hts
      cases ts with
      | nil =>
          constructor <;> intro t ht <;> simp [visitedLoop, visitedF] at ht
      | cons hd rest =>
          obtain ⟨ty, mg, sp, ep, cs⟩ := hd
          have hszcs : sizeOf cs ≤ k := by
            simp only [List.cons.sizeOf_spec, STree.mk.sizeOf_spec] at hts
            omega
          have hszrest : sizeOf rest ≤ k := by
            simp only [List.cons.sizeOf_spec, STree.mk.sizeOf_spec] at hts
            omega
          have hL : ∀ t ∈ visitedLoop (STree.mk ty mg sp ep cs :: rest),
              ∀ mrk ∈ nodeMarkers t, mrk ∈ findLoop (STree.mk ty mg sp ep cs :: rest) := by
            intro t ht mrk hm
            simp only [visitedLoop] at ht
            simp only [findLoop]
            rcases List.mem_cons.mp ht with h1 | h2
            · subst h1
              exact List.mem_append_left _ (List.mem_append_left _ hm)
            rcases List.mem_append.mp h2 with h3 | h4
            · exact List.mem_append_left _
                (List.mem_append_right _ ((ih cs hszcs).2 t h3 mrk hm))
            · exact List.mem_append_right _ ((ih rest hszrest).1 t h4 mrk hm)
          refine ⟨hL, ?_⟩
          intro t ht mrk hm
          simp only [visitedF] at ht
          by_cases he : (STree.mk ty mg sp ep cs).hasError = true
          · rw [if_pos he] at ht
            simp only [findErrors]
            rw [if_pos he]
            exact hL t ht mrk hm
          · rw [if_neg he] at ht
            simp at ht

/-- C4 (amended): during the syntax pass, every node the traversal
visits whose type tag is "ERROR" yields the error-severity "unable to
parse" diagnostic spanning that node, and every visited node flagged as
missing yields the error-severity "Missing <type>" diagnostic at the
position where it was expected — nodes in subtrees the traversal skips
are not covered (see the counterexample). -/
theorem c4_visited_nodes_report (ts : List STree) (t : STree) (ht : t ∈ visitedF ts) :
    (t.nodeType = "ERROR" → errMarkerOf t ∈ findErrors ts) ∧
    (t.isMissing = true → missMarkerOf t ∈ findErrors ts) := by
  constructor
  · intro hty
    have hm : errMarkerOf t ∈ nodeMarkers t := by
      simp only [nodeMarkers]
      exact List.mem_append_left _ (by simp [hty])
    exact (visited_markers_sub (sizeOf ts) ts le_rfl).2 t ht _ hm
  · intro hmiss
    have hm : missMarkerOf t ∈ nodeMarkers t := by
      simp only [nodeMarkers]
      exact List.mem_append_right _ (by simp [hmiss])
    exact (visited_markers_sub (sizeOf ts) ts le_rfl).2 t ht _ hm

/-- Witness for C4 at the tree whose ERROR node is the first child: the
traversal visits it and its "unable to parse" marker is emitted. -/
theorem c4_visited_nodes_report_witness :
    tsLeaf "ERROR" false 0 0 0 3 ∈ visitedF [errFirstTree] ∧
    errMarkerOf (tsLeaf "ERROR" false 0 0 0 3) ∈ findErrors [errFirstTree] := by
  have hmem : tsLeaf "ERROR" false 0 0 0 3 ∈ visitedF [errFirstTree] := by
    simp [visitedF, visitedLoop, errFirstTree, tsLeaf, STree.hasError, hasErrorL]
  exact ⟨hmem, (c4_visited_nodes_report [errFirstTree] _ hmem).1 rfl⟩

/-- Rebuilding a string from its character list is the identity. -/
theorem strMk_toList (s : String) : String.mk s.toList = s := rfl

/-- A well-formed identifier has a nonempty character list made of
identifier characters. -/
theorem identOk_spec {s : String} (h : identOk s = true) :
    s.toList ≠ [] ∧ ∀ c ∈ s.toList, identChar c = true := by
  simp only [identOk, Bool.and_eq_true, Bool.not_eq_true', List.isEmpty_eq_false,
    List.all_eq_true] at h
  exact h

/-- The identifier span stops exactly at the space that follows a
rendered identifier. -/
theorem spanIdent_append_space (xs : List Char) (r : List Char)
    (hx : ∀ c ∈ xs, identChar c = true) :
    spanIdent (xs ++ ' ' :: r) = (xs, ' ' :: r) := by
  induction xs with
  | nil =>
      simp only [List.nil_append, spanIdent]
      rw [if_neg (by decide)]
  | cons x xs ih =>
      have hx0 : identChar x = true := hx x (List.mem_cons_self x xs)
      simp [spanIdent, hx0, ih (fun c hc => hx c (List.mem_cons_of_mem x hc))]

/-- Reading up to the closing quote recovers a quote-free rendered
string. -/
theorem takeStr_append (s : List Char) (r : List Char)
    (hs : ∀ c ∈ s, ¬c = '"') :
    takeStr (s ++ '"' :: r) = some (s, r) := by
  induction s with
  | nil => simp [takeStr]
  | cons c s ih =>
      have hc : ¬c = '"' := hs c (List.mem_cons_self c s)
      simp [takeStr, hc, ih (fun d hd => hs d (List.mem_cons_of_mem c hd))]

/-- The newline span stops exactly at the newline that follows a
rendered expression. -/
theorem spanNotNl_append (e : List Char) (r : List Char)
    (he : ∀ c ∈ e, ¬c = '\n') :
    spanNotNl (e ++ '\n' :: r) = (e, '\n' :: r) := by
  induction e with
  | nil => simp [spanNotNl]
  | cons c e ih =>
      have hc : ¬c = '\n' := he c (List.mem_cons_self c e)
      simp [spanNotNl, hc, ih (fun d hd => he d (List.mem_cons_of_mem c hd))]

/-- Consuming an expected literal prefix succeeds on exactly that
prefix. -/
theorem dropLit_append (pat : List Char) (r : List Char) :
    dropLit pat (pat ++ r) = some r := by
  induction pat with
  | nil => simp [dropLit]
  | cons p ps ih => simp [dropLit, ih]

/-- parseValue reads back a canonical quoted string value. -/
theorem parseValue_str (s : String) (r : List Char) (hq : quotedOk s = true) :
    parseValue ('"' :: (s.toList ++ '"' :: r)) = some (.str s, r) := by
  have hs : ∀ c ∈ s.toList, ¬c = '"' := by
    simp only [quotedOk, List.all_eq_true, Bool.not_eq_true'] at hq
    intro c hc
    simpa using hq c hc
  simp only [parseValue, if_pos]
  rw [takeStr_append s.toList r hs]
  simp [strMk_toList]

/-- parseValue reads back a canonical unquoted expression value. -/
theorem parseValue_expr (e : String) (r : List Char) (he : exprOk e = true) :
    parseValue (e.toList ++ '\n' :: r) = some (.expr e, '\n' :: r) := by
  have hnl : ∀ c ∈ e.toList, ¬c = '\n' := by
    simp only [exprOk, Bool.and_eq_true, List.all_eq_true, Bool.not_eq_true'] at he
    intro c hc
    simpa using he.1 c hc
  cases hcase : e.toList with
  | nil =>
      have hemp : e = String.mk [] := by rw [← hcase, strMk_toList]
      subst hemp
      simp [parseValue, spanNotNl]
  | cons c etl =>
      have hcq : ¬c = '"' := by
        simp only [exprOk, Bool.and_eq_true, Bool.not_eq_true'] at he
        have h2 := he.2
        rw [hcase] at h2
        simpa using h2
      have hsp := spanNotNl_append e.toList r hnl
      rw [hcase] at hsp
      simp only [List.cons_append] at hsp ⊢
      simp only [parseValue, if_neg hcq]
      rw [hsp]
      rw [show (c :: etl : List Char) = e.toList from hcase.symm, strMk_toList]

/-- A rendered body always has positive parse-fuel demand. -/
theorem sizeStmts_pos (ss : List Stmt) : 1 ≤ sizeStmts ss := by
  cases ss with
  | nil => simp [sizeStmts]
  | cons s r =>
      have : sizeStmts (s :: r) = 1 + sizeStmt s + sizeStmts r := by
        simp [sizeStmts]
      omega

/-- The rendered header of a block always reads: name, space, then
either a quote (labelled) or an open brace (unlabelled). -/
theorem headerL_shape (bn : String) (bl : Option String) :
    ∃ c2 X, headerL bn bl = bn.toList ++ ' ' :: c2 :: X ∧ (c2 = '"' ∨ c2 = '{') := by
  cases bl with
  | none => exact ⟨'{', ['\n'], by simp [headerL], Or.inr rfl⟩
  | some lab =>
      exact ⟨'"', lab.toList ++ ['"', ' ', '{', '\n'], by simp [headerL], Or.inl rfl⟩

/-- Round-trip of the canonical codec, by induction on the parse fuel:
parsing the rendered text of a well-formed block (or body) consumes
exactly that text and returns the block (or body) unchanged. -/
theorem parse_marshal (fuel : Nat) :
    (∀ b : Block, wfBlock b = true → sizeBlock b ≤ fuel →
      ∀ rest, parseBlockF fuel (marshalL b ++ rest) = some (b, rest)) ∧
    (∀ ss : List Stmt, wfStmts ss = true → sizeStmts ss ≤ fuel →
      ∀ rest, parseStmtsF fuel (marshalStmts ss ++ '}' :: rest) = some (ss, rest)) := by
  induction fuel with
  | zero =>
      constructor
      · intro b hwf hsz rest
        exfalso
        have hpos := sizeStmts_pos b.body
        simp only [sizeBlock] at hsz
        omega
      · intro ss hwf hsz rest
        exfalso
        have hpos := sizeStmts_pos ss
        omega
  | succ fuel ih =>
      obtain ⟨ihA, ihB⟩ := ih
      have partA : ∀ b : Block, wfBlock b = true → sizeBlock b ≤ fuel + 1 →
          ∀ rest, parseBlockF (fuel + 1) (marshalL b ++ rest) = some (b, rest) := by
        rintro ⟨n, l, body⟩ hwf hsz rest
        simp only [wfBlock, Bool.and_eq_true] at hwf
        obtain ⟨⟨hn, hl⟩, hbody⟩ := hwf
        obtain ⟨hnne, hnchars⟩ := identOk_spec hn
        have hne2 : n.toList.isEmpty = false := List.isEmpty_eq_false.mpr hnne
        have hszb : sizeStmts body ≤ fuel := by
          simp only [sizeBlock] at hsz
          omega
        have hB := ihB body hbody hszb rest
        cases l with
        | none =>
            simp only [marshalL, marshalStmt, headerL, List.append_assoc,
              List.cons_append, List.nil_append, List.singleton_append,
              parseBlockF]
            rw [spanIdent_append_space n.toList _ hnchars]
            simp only [hne2, Bool.false_eq_true, if_false, dropLit,
              reduceIte]
            rw [hB]
            simp [strMk_toList]
        | some lab =>
            have hlq : ∀ c ∈ lab.toList, ¬c = '"' := by
              simp only [labelOptOk, quotedOk, List.all_eq_true,
                Bool.not_eq_true'] at hl
              intro c hc
              simpa using hl c hc
            simp only [marshalL, marshalStmt, headerL, List.append_assoc,
              List.cons_append, List.nil_append, List.singleton_append,
              parseBlockF]
            rw [spanIdent_append_space n.toList _ hnchars]
            simp only [hne2, Bool.false_eq_true, if_false, dropLit,
              reduceIte]
            rw [takeStr_append lab.toList _ hlq]
            simp only [dropLit, reduceIte]
            rw [hB]
            simp [strMk_toList]
      refine ⟨partA, ?_⟩
      intro ss hwf hsz rest
      cases ss with
      | nil =>
          simp [marshalStmts, parseStmtsF]
      | cons s tail =>
          have hwf2 : wfStmt s = true ∧ wfStmts tail = true := by
            simp only [wfStmts, Bool.and_eq_true] at hwf
            exact hwf
          obtain ⟨hs, htail⟩ := hwf2
          cases s with
          | attr k v =>
              simp only [wfStmt, Bool.and_eq_true] at hs
              obtain ⟨hk, hv⟩ := hs
              obtain ⟨hkne, hkchars⟩ := identOk_spec hk
              have hkne2 : k.toList.isEmpty = false := List.isEmpty_eq_false.mpr hkne
              obtain ⟨kc, ktl, hksh⟩ : ∃ a b, k.toList = a :: b := by
                cases hcc : k.toList with
                | nil => exact absurd hcc hkne
                | cons a b => exact ⟨a, b, rfl⟩
              have hkc : identChar kc = true := hkchars kc (by rw [hksh]; exact List.mem_cons_self kc ktl)
              have hkcne : ¬kc = '}' := by
                intro hcontra
                rw [hcontra] at hkc
                exact absurd hkc (by decide)
              have hszt : sizeStmts tail ≤ fuel := by
                simp only [sizeStmts, sizeStmt] at hsz
                omega
              have hT := ihB tail htail hszt rest
              cases v with
              | str sv =>
                  have hsv : quotedOk sv = true := hv
                  simp only [marshalStmts, marshalStmt, List.append_assoc,
                    List.cons_append, List.nil_append, List.singleton_append]
                  rw [hksh, List.cons_append]
                  simp only [parseStmtsF, if_neg hkcne]
                  rw [← List.cons_append, ← hksh]
                  rw [spanIdent_append_space k.toList _ hkchars]
                  simp only [hkne2, Bool.false_eq_true, if_false, dropLit,
                    reduceIte]
                  rw [parseValue_str sv _ hsv]
                  simp only [dropLit, reduceIte]
                  rw [hT]
                  simp [strMk_toList]
              | expr ev =>
                  have hev : exprOk ev = true := hv
                  simp only [marshalStmts, marshalStmt, List.append_assoc,
                    List.cons_append, List.nil_append, List.singleton_append]
                  rw [hksh, List.cons_append]
                  simp only [parseStmtsF, if_neg hkcne]
                  rw [← List.cons_append, ← hksh]
                  rw [spanIdent_append_space k.toList _ hkchars]
                  simp only [hkne2, Bool.false_eq_true, if_false, dropLit,
                    reduceIte]
                  rw [parseValue_expr ev _ hev]
                  simp only [dropLit, reduceIte]
                  rw [hT]
                  simp [strMk_toList]
          | blk bn bl bbody =>
              simp only [wfStmt, Bool.and_eq_true] at hs
              obtain ⟨⟨hbn, hbl⟩, hbb⟩ := hs
              obtain ⟨hbnne, hbnchars⟩ := identOk_spec hbn
              obtain ⟨bc, btl, hbsh⟩ : ∃ a b, bn.toList = a :: b := by
                cases hcc : bn.toList with
                | nil => exact absurd hcc hbnne
                | cons a b => exact ⟨a, b, rfl⟩
              have hbc : identChar bc = true :=
                hbnchars bc (by rw [hbsh]; exact List.mem_cons_self bc btl)
              have hbcne : ¬bc = '}' := by
                intro hcontra
                rw [hcontra] at hbc
                exact absurd hbc (by decide)
              obtain ⟨c2, X, hhead, hc2⟩ := headerL_shape bn bl
              have hc2ne : ¬c2 = '=' := by
                rcases hc2 with h | h <;> rw [h] <;> decide
              have hszt : sizeStmts tail ≤ fuel := by
                have hp1 := sizeStmts_pos bbody
                simp only [sizeStmts, sizeStmt] at hsz
                omega
              have hszblk : sizeBlock ⟨bn, bl, bbody⟩ ≤ fuel := by
                have hp2 := sizeStmts_pos tail
                simp only [sizeStmts, sizeStmt] at hsz
                simp only [sizeBlock]
                omega
              have hwfblk : wfBlock ⟨bn, bl, bbody⟩ = true := by
                simp only [wfBlock, Bool.and_eq_true]
                exact ⟨⟨hbn, hbl⟩, hbb⟩
              have hT := ihB tail htail hszt rest
              have hA := ihA ⟨bn, bl, bbody⟩ hwfblk hszblk
                ('\n' :: (marshalStmts tail ++ '}' :: rest))
              simp only [marshalL, marshalStmt, hhead, List.append_assoc,
                List.cons_append, List.nil_append, List.singleton_append] at hA
              rw [hbsh, List.cons_append] at hA
              simp only [marshalStmts, marshalStmt, hhead, List.append_assoc,
                List.cons_append, List.nil_append, List.singleton_append]
              rw [hbsh, List.cons_append]
              simp only [parseStmtsF, if_neg hbcne]
              rw [← List.cons_append, ← hbsh]
              rw [spanIdent_append_space bn.toList _ hbnchars]
              simp only [List.isEmpty_eq_false.mpr hbnne, Bool.false_eq_true,
                if_false, dropLit, if_neg hc2ne]
              rw [hbsh, List.cons_append]
              rw [hA]
              simp only [dropLit, reduceIte]
              rw [hT]
              simp [strMk_toList]

/-- The parse-fuel demand of a body item is bounded by the length of its
rendering (strong induction on the term size). -/
theorem size_le_marshal (k : Nat) :
    (∀ s : Stmt, sizeOf s ≤ k → sizeStmt s ≤ (marshalStmt s).length) ∧
    (∀ ss : List Stmt, sizeOf ss ≤ k → sizeStmts ss ≤ (marshalStmts ss).length + 1) := by
  induction k with
  | zero =>
      constructor
      · intro s hs
        exfalso
        cases s <;> simp at hs
      · intro ss hss
        exfalso
        cases ss <;> simp at hss
  | succ k ih =>
      obtain ⟨ihS, ihL⟩ := ih
      constructor
      · intro s hs
        cases s with
        | attr key v =>
            cases v with
            | str sv =>
                simp only [sizeStmt, marshalStmt, List.length_append,
                  List.length_cons]
                omega
            | expr ev =>
                simp only [sizeStmt, marshalStmt, List.length_append,
                  List.length_cons]
                omega
        | blk bn bl body =>
            have hsz : sizeOf body ≤ k := by
              simp only [Stmt.blk.sizeOf_spec] at hs
              omega
            have hb := ihL body hsz
            simp only [sizeStmt, marshalStmt, List.length_append,
              List.length_cons]
            cases bl with
            | none =>
                simp only [headerL, List.length_append, List.length_cons,
                  List.length_nil]
                omega
            | some lab =>
                simp only [headerL, List.length_append, List.length_cons,
                  List.length_nil]
                omega
      · intro ss hss
        cases ss with
        | nil => simp [sizeStmts, marshalStmts]
        | cons s tail =>
            have hs1 : sizeOf s ≤ k := by
              simp only [List.cons.sizeOf_spec] at hss
              omega
            have hs2 : sizeOf tail ≤ k := by
              simp only [List.cons.sizeOf_spec] at hss
              omega
            have h1 := ihS s hs1
            have h2 := ihL tail hs2
            have h3 : sizeStmts (s :: tail) = 1 + sizeStmt s + sizeStmts tail := by
              simp [sizeStmts]
            have h4 : (marshalStmts (s :: tail)).length =
                (marshalStmt s).length + 1 + (marshalStmts tail).length := by
              simp [marshalStmts]
              omega
            omega

/-- The fuel parseUnmarshal grants (text length + 1) always suffices for
the text marshal renders. -/
theorem sizeBlock_le_marshal (b : Block) :
    sizeBlock b ≤ (marshalL b).length + 1 := by
  have h := (size_le_marshal (sizeOf b.body)).2 b.body le_rfl
  simp only [sizeBlock, marshalL, marshalStmt, List.length_append,
    List.length_cons]
  omega

/-- C8: for every well-formed Block, unmarshalling the parse of its
marshalled text yields the block back unchanged (structural equality on
name, label and the ordered body); marshal is a total function, so it
never throws on a structurally valid Block. -/
theorem c8_round_trip (b : Block) (h : wfBlock b = true) :
    parseUnmarshal (marshal b) = some b := by
  have htl : (marshal b).toList = marshalL b := rfl
  simp only [parseUnmarshal, htl]
  have hp := (parse_marshal ((marshalL b).length + 1)).1 b h (sizeBlock_le_marshal b) []
  rw [List.append_nil] at hp
  rw [hp]

/-- Witness for C8 at a concrete labelled block with one attribute. -/
theorem c8_round_trip_witness :
    wfBlock exBlock = true ∧ parseUnmarshal (marshal exBlock) = some exBlock := by
  have hwf : wfBlock exBlock = true := by
    simp [wfBlock, exBlock, wfStmts, wfStmt, wfValue]
    decide
  exact ⟨hwf, c8_round_trip exBlock hwf⟩
